import Mathlib

/-!
Shallow embedding of `app_patent_gdrive.py`: the query-classification and
file-matching core (patent-number detection via `PATENT_NUMBER_REGEX`,
identifier normalization via `re.sub(r'[\s.]', '', x).lower()`, the
file-matching loop, the summarize/cleanup block and the surrounding
interaction flow), together with proofs of the specification claims.

Text is modelled as `List Char` restricted to ASCII: the character classes
below transcribe the ASCII core of Python's `\s`, `\d`, `[A-Z]`
(case-insensitive) and `\w`.
-/

/-- Characters of the ASCII core of the Python regex class `\s`. -/
def isWs (c : Char) : Bool :=
  c == ' ' || c == '\t' || c == '\n' || c == '\r' || c == '\x0b' || c == '\x0c'

/-- Characters of the Python regex class `\d` (ASCII digits). -/
def isDigitC (c : Char) : Bool :=
  '0' ≤ c && c ≤ '9'

/-- Characters of `[A-Z]` under `re.IGNORECASE` (ASCII letters). -/
def isLetterC (c : Char) : Bool :=
  ('A' ≤ c && c ≤ 'Z') || ('a' ≤ c && c ≤ 'z')

/-- Characters of the class `[\s.]` used both in the optional tail of
`PATENT_NUMBER_REGEX` and in the normalization `re.sub(r'[\s.]', '', x)`. -/
def isSep (c : Char) : Bool :=
  isWs c || c == '.'

/-- Characters of the Python regex class `\w` (ASCII core), used by `\b`. -/
def isWordChar (c : Char) : Bool :=
  isLetterC c || isDigitC c || c == '_'

/-- ASCII lower-casing of one character, as performed by Python `str.lower`
on ASCII input. -/
def toLowerC (c : Char) : Char :=
  if 'A' ≤ c && c ≤ 'Z' then Char.ofNat (c.toNat + 32) else c

/-- Embeds `re.sub(r'[\s.]', '', x).lower()` (lines 120 and 125 of the
source): every whitespace and period character is removed, then the result
is lower-cased. -/
def normalizeKey (l : List Char) : List Char :=
  (l.filter (fun c => !isSep c)).map toLowerC

/-- Matcher for the alternation `(?:US|KR|CN|JP|EP)` of
`PATENT_NUMBER_REGEX` under `re.IGNORECASE`: recognizes one of the five
two-letter jurisdiction codes at the head of the input and returns the
consumed characters together with the rest.  The five alternatives start
with distinct letters, so the alternation is deterministic. -/
def matchCountryCode (l : List Char) : Option (List Char × List Char) :=
  match l with
  | a :: b :: rest =>
    if ((a == 'U' || a == 'u') && (b == 'S' || b == 's')) ||
       ((a == 'K' || a == 'k') && (b == 'R' || b == 'r')) ||
       ((a == 'C' || a == 'c') && (b == 'N' || b == 'n')) ||
       ((a == 'J' || a == 'j') && (b == 'P' || b == 'p')) ||
       ((a == 'E' || a == 'e') && (b == 'P' || b == 'p')) then
      some ([a, b], rest)
    else none
  | _ => none

/-- Word-boundary test after a match: the regex `\b` at the end of
`PATENT_NUMBER_REGEX` holds exactly when the remaining input is empty or
starts with a non-word character (the last matched character is always a
digit or a letter, hence a word character). -/
def boundaryAfter : List Char → Bool
  | [] => true
  | c :: _ => !isWordChar c

/-- Backtracking matcher for the suffix `(?:[\s.]?[A-Z]\d?)?\b` of
`PATENT_NUMBER_REGEX`, applied after the digit run.  Alternatives are tried
in the greedy preference order of Python's engine (separator present before
absent, trailing digit present before absent, optional group present before
empty), and each candidate end position is checked against the final `\b`.
Returns the characters consumed by the optional group and the rest. -/
def matchTail : List Char → Option (List Char × List Char)
  | [] => some ([], [])
  | [c] =>
    if isSep c then some ([], [c])
    else if isLetterC c then some ([c], [])
    else if !isWordChar c then some ([], [c])
    else none
  | [c, a] =>
    if isSep c then
      (if isLetterC a then some ([c, a], []) else some ([], [c, a]))
    else if isLetterC c then
      (if isDigitC a then some ([c, a], [])
       else if !isWordChar a then some ([c], [a])
       else none)
    else if !isWordChar c then some ([], [c, a])
    else none
  | c :: a :: d :: r =>
    if isSep c then
      (if isLetterC a then
        (if isDigitC d && boundaryAfter r then some ([c, a, d], r)
         else if !isWordChar d then some ([c, a], d :: r)
         else some ([], c :: a :: d :: r))
       else some ([], c :: a :: d :: r))
    else if isLetterC c then
      (if isDigitC a && boundaryAfter (d :: r) then some ([c, a], d :: r)
       else if !isWordChar a then some ([c], a :: d :: r)
       else none)
    else if !isWordChar c then some ([], c :: a :: d :: r)
    else none

/-- Attempt of `PATENT_NUMBER_REGEX` at the head of the input (the leading
`\b` is checked by the caller).  Follows the engine: the alternation, then
greedy `\s*`, then greedy `[\d]+`, then the optional tail with the final
`\b`.  The classes `\s` and `\d` are disjoint from each other and from the
classes that may follow, so the two greedy runs are deterministic; a
shortened digit run would leave a digit as the next character, on which the
optional group and the final `\b` both fail, so only the maximal run can
succeed and backtracking into `[\d]+` is not modelled.  Returns the matched
text (equal to capture group 1) and the rest of the input. -/
def matchAtFull (l : List Char) : Option (List Char × List Char) :=
  match matchCountryCode l with
  | none => none
  | some (p, r1) =>
    if ((r1.dropWhile isWs).takeWhile isDigitC).isEmpty then none
    else
      match matchTail ((r1.dropWhile isWs).dropWhile isDigitC) with
      | none => none
      | some (t, r4) =>
        some (p ++ r1.takeWhile isWs ++ (r1.dropWhile isWs).takeWhile isDigitC ++ t, r4)

/-- Matched text of `PATENT_NUMBER_REGEX` at the head of the input. -/
def matchAt (l : List Char) : Option (List Char) :=
  (matchAtFull l).map Prod.fst

/-- Word-boundary test before a match position: `\b` holds when the
word-character status changes between the previous character (none at the
start of the string, counting as non-word) and the current one. -/
def wordBoundary (prev : Option Char) (c : Char) : Bool :=
  isWordChar c != (match prev with | none => false | some p => isWordChar p)

/-- Scanning loop of `re.search`: positions are tried left to right; at
each position the leading `\b` is checked and the pattern is attempted; the
first position with a match wins. -/
def searchAux : Option Char → List Char → Option (List Char)
  | _, [] => none
  | prev, c :: rest =>
    match (if wordBoundary prev c then matchAt (c :: rest) else none) with
    | some m => some m
    | none => searchAux (some c) rest

/-- Embeds `PATENT_NUMBER_REGEX.search(prompt)` (line 116), returning
`match.group(1)` of the first match when one exists. -/
def PATENT_NUMBER_REGEX_search (l : List Char) : Option (List Char) :=
  searchAux none l

/-- Declarative attempt of the pattern at position `i` of the input, used
to state that `re.search` uses the leftmost match. -/
def tryAt : Option Char → List Char → Nat → Option (List Char)
  | _, [], _ => none
  | prev, c :: rest, 0 =>
    if wordBoundary prev c then matchAt (c :: rest) else none
  | _, c :: rest, i + 1 => tryAt (some c) rest i

/-- Last character of `pre` when it exists, else the given previous
character: the character immediately before a position reached after
scanning across `pre`. -/
def prevAfter (prev : Option Char) : List Char → Option Char
  | [] => prev
  | c :: rest => prevAfter (some c) rest

/-- Word-boundary condition on the text preceding an occurrence: the
occurrence starts the string or follows a non-word character. -/
def okBefore (pre : List Char) : Bool :=
  match prevAfter none pre with
  | none => true
  | some c => !isWordChar c

/-- Tail classification of the amended token shape: nothing, or a single
letter optionally preceded by one whitespace-or-period character and
optionally followed by one trailing digit. -/
def tailShapeCheck : List Char → Bool
  | [] => true
  | [a] => isLetterC a
  | [x, y] => (isLetterC x && isDigitC y) || (isSep x && isLetterC y)
  | [s, a, b] => isSep s && isLetterC a && isDigitC b
  | _ => false

/-- Modelled from the amended claim wording: a token is one of the prefixes
US, KR, CN, JP, EP (case-insensitive), then optional whitespace (periods
are not allowed between the prefix and the digits), then one or more
digits, then the optional letter tail. -/
def amendedShape (l : List Char) : Bool :=
  match matchCountryCode l with
  | none => false
  | some (_, r1) =>
    !((r1.dropWhile isWs).takeWhile isDigitC).isEmpty &&
      tailShapeCheck ((r1.dropWhile isWs).dropWhile isDigitC)

/-- Modelled from the claim wording of C4: a token is one of the prefixes
followed by digits, optionally followed by a single letter and an optional
trailing digit, case-insensitively, with internal whitespace AND periods
allowed between the prefix and the digits. -/
def claimedShapeC4 (l : List Char) : Bool :=
  match matchCountryCode l with
  | none => false
  | some (_, r1) =>
    !((r1.dropWhile isSep).takeWhile isDigitC).isEmpty &&
      (match (r1.dropWhile isSep).dropWhile isDigitC with
       | [] => true
       | [a] => isLetterC a
       | [a, b] => isLetterC a && isDigitC b
       | _ => false)

/-- Embeds `os.path.splitext(name)[0]` (posix rules, line 125): the
extension starts at the last period of the final path component provided
some earlier character of that component is not a period; leading periods
never start an extension. -/
def splitextRoot (p : List Char) : List Char :=
  match p.reverse.dropWhile (fun c => !(c == '.' || c == '/')) with
  | '.' :: rest =>
    if (rest.takeWhile (fun c => !(c == '/'))).any (fun c => !(c == '.')) then
      rest.reverse
    else p
  | _ => p

/-- One file entry returned by the Drive listing: `{id, name}`. -/
structure FileRecord where
  id : List Char
  name : List Char
deriving DecidableEq

/-- Normalized base-name of a listed file, as computed at line 125 of the
source: extension removed, whitespace and periods stripped, lower-cased. -/
def normalizedBaseName (f : FileRecord) : List Char :=
  normalizeKey (splitextRoot f.name)

/-- Embeds the file-matching loop (lines 123 to 128): scan the listing in
order and return the first record whose normalized base-name equals the
normalized query key. -/
def findTargetFile (key : List Char) : List FileRecord → Option FileRecord
  | [] => none
  | f :: fs => if normalizedBaseName f == key then some f else findTargetFile key fs

/-- Role tag of one transcript entry. -/
inductive Role where
  | user
  | assistant
deriving DecidableEq

/-- One entry of `st.session_state.messages`. -/
structure ConversationMessage where
  role : Role
  content : List Char
deriving DecidableEq

/-- In-memory session state: the transcript list together with the two
framework-owned caches (`@st.cache_data` on `list_drive_files` and
`@st.cache_resource` on `get_gdrive_service`). -/
structure AppState where
  messages : List ConversationMessage
  listDriveFilesCache : Option (List FileRecord)
  gdriveServiceCache : Option Bool

/-- Embeds the reset-button handler (lines 45 to 47):
`st.session_state.messages = []` followed by `st.rerun()`. -/
def resetConversation (s : AppState) : AppState :=
  { s with messages := [] }

/-- Observable actions of one interaction: user-visible messages and the
calls issued to the external services. -/
inductive Effect where
  | infoFillSettings
  | authAttempt
  | errorAuthFailed
  | listFilesCall
  | errorListFailed
  | warnNoFiles
  | appendUserMsg (content : List Char)
  | infoSearching (key : List Char)
  | download (fileId : List Char)
  | upload (name : List Char)
  | generate (name : List Char)
  | deleteUpload (name : List Char)
  | showSummary
  | appendAssistantMsg
  | errorSummaryFailed
  | errorNotFound
  | warnTopicSearch
  | infoFirstFiveOnly
  | errorTopicUnsupported
deriving DecidableEq

/-- Outcome of one external API call. -/
inductive ApiOutcome where
  | ok
  | raise
deriving DecidableEq

/-- Outcomes of the four external calls inside the summarization block. -/
structure Env where
  download : ApiOutcome
  upload : ApiOutcome
  generate : ApiOutcome
  delete : ApiOutcome
deriving DecidableEq

/-- Embeds the download-upload-summarize-delete block (lines 131 to 160):
the four external calls run in order inside one `try`; the first call that
raises jumps to the `except` handler (`st.error`), skipping everything
after it — there is no `finally` clause in the source. -/
def summarizeBlock (f : FileRecord) (env : Env) : List Effect :=
  Effect.download f.id ::
  (if env.download = ApiOutcome.raise then [Effect.errorSummaryFailed] else
    Effect.upload f.name ::
    (if env.upload = ApiOutcome.raise then [Effect.errorSummaryFailed] else
      Effect.generate f.name ::
      (if env.generate = ApiOutcome.raise then [Effect.errorSummaryFailed] else
        Effect.deleteUpload f.name ::
        (if env.delete = ApiOutcome.raise then [Effect.errorSummaryFailed] else
          [Effect.showSummary, Effect.appendAssistantMsg]))))

/-- Embeds the assistant block for one prompt (lines 115 to 180): search
for a patent number; on a match, normalize it and look it up in the
listing, then summarize or report not-found; with no match, emit the
topic-search warning, the proof-of-concept note (the loop over
`drive_files[:5]` only executes `pass`) and the unsupported report. -/
def handleAssistantTurn (prompt : List Char) (files : List FileRecord) (env : Env) :
    List Effect :=
  match PATENT_NUMBER_REGEX_search prompt with
  | some m =>
    Effect.infoSearching (normalizeKey m) ::
    (match findTargetFile (normalizeKey m) files with
     | some f => summarizeBlock f env
     | none => [Effect.errorNotFound])
  | none =>
    [Effect.warnTopicSearch, Effect.infoFirstFiveOnly, Effect.errorTopicUnsupported]

/-- Sidebar configuration inputs; an empty string is falsy for Python's
`all(...)` at line 86. -/
structure Config where
  geminiApiKey : List Char
  driveFolderId : List Char
  gcpServiceAccountJson : List Char

/-- One page of the Drive listing API (modelled external collaborator):
at most `pageSize` files are returned, together with the presence of a
`nextPageToken` for the remainder. -/
def drivePage (remote : List FileRecord) (pageSize : Nat) : List FileRecord × Bool :=
  (remote.take pageSize, decide (pageSize < remote.length))

/-- Embeds `list_drive_files` (lines 67 to 79): a single `files().list`
call with `pageSize=1000`; the `nextPageToken` field is requested but never
followed; on an exception the error is shown and the empty list is
returned.  Returns the emitted effects and the visible listing. -/
def list_drive_files (remote : List FileRecord) (raises : Bool) :
    List Effect × List FileRecord :=
  if raises then ([Effect.errorListFailed], [])
  else ([], (drivePage remote 1000).fst)

/-- External circumstances of one interaction. -/
structure TopEnv where
  authOk : Bool
  remoteFolder : List FileRecord
  listRaises : Bool
  promptInput : Option (List Char)
  api : Env

/-- Embeds the main flow (lines 86 to 180): the configuration guard, then
authentication (whose failure is reported inside `get_gdrive_service`,
after which `if drive_service:` skips everything), then the cached listing,
the empty-listing warning, and the per-prompt assistant turn. -/
def mainInteraction (c : Config) (env : TopEnv) : List Effect :=
  if c.geminiApiKey.isEmpty || c.driveFolderId.isEmpty ||
      c.gcpServiceAccountJson.isEmpty then
    [Effect.infoFillSettings]
  else
    Effect.authAttempt ::
    (if !env.authOk then [Effect.errorAuthFailed]
     else
       Effect.listFilesCall ::
       (list_drive_files env.remoteFolder env.listRaises).fst ++
       (match (list_drive_files env.remoteFolder env.listRaises).snd with
        | [] => [Effect.warnNoFiles]
        | f :: fs =>
          match env.promptInput with
          | none => []
          | some prompt =>
            Effect.appendUserMsg prompt :: handleAssistantTurn prompt (f :: fs) env.api))

/-- Number of `genai.delete_file` calls issued in a list of effects. -/
def countDeletes (es : List Effect) : Nat :=
  (es.filter (fun e => match e with | Effect.deleteUpload _ => true | _ => false)).length

/-- Presence of a file-download call in a list of effects. -/
def hasDownload (es : List Effect) : Bool :=
  es.any (fun e => match e with | Effect.download _ => true | _ => false)

/-- Presence of a summarization (`generate_content`) call in a list of
effects. -/
def hasSummarize (es : List Effect) : Bool :=
  es.any (fun e => match e with | Effect.generate _ => true | _ => false)

/-- Sample file record used by concrete instances: the record from the
specification's test vector. -/
def fileA : FileRecord :=
  ⟨"1".data, "US1234567A1.pdf".data⟩

/-- Environment in which every external call succeeds. -/
def envAllOk : Env :=
  ⟨ApiOutcome.ok, ApiOutcome.ok, ApiOutcome.ok, ApiOutcome.ok⟩

/-- Helper: character order transfers to code points. -/
theorem char_le_toNat {a b : Char} (h : a ≤ b) : a.toNat ≤ b.toNat := by
  rw [Char.le_def] at h
  exact h

/-- Helper: every character of the class `[\s.]` has a code point of at
most 46. -/
theorem toNat_le_of_isSep (c : Char) (h : isSep c = true) : c.toNat ≤ 46 := by
  simp only [isSep, isWs, Bool.or_eq_true, beq_iff_eq] at h
  rcases h with (((((rfl | rfl) | rfl) | rfl) | rfl) | rfl) | rfl <;> decide

/-- Helper: characters with code point at least 47 are not stripped. -/
theorem isSep_false_of_ge (c : Char) (h : 47 ≤ c.toNat) : isSep c = false := by
  cases hs : isSep c with
  | false => rfl
  | true => exact absurd (toNat_le_of_isSep c hs) (by omega)

/-- Helper: lower-casing an upper-case letter adds 32 to its code point. -/
theorem toLowerC_toNat (c : Char) (h1 : 'A' ≤ c) (h2 : c ≤ 'Z') :
    (toLowerC c).toNat = c.toNat + 32 := by
  have hb : c.toNat ≤ 90 := by
    have := char_le_toNat h2
    simpa using this
  have hc : ('A' ≤ c && c ≤ 'Z') = true := by simp [h1, h2]
  simp only [toLowerC, hc, if_true]
  unfold Char.ofNat
  rw [dif_pos (Or.inl (by omega : c.toNat + 32 < 55296))]
  rfl

/-- Helper: characters outside the upper-case range are fixed by
lower-casing. -/
theorem toLowerC_eq_self (d : Char) (h : ('A' ≤ d && d ≤ 'Z') = false) :
    toLowerC d = d := by
  simp [toLowerC, h]

/-- Helper: ASCII lower-casing is idempotent. -/
theorem toLowerC_idem (c : Char) : toLowerC (toLowerC c) = toLowerC c := by
  by_cases h : ('A' ≤ c && c ≤ 'Z') = true
  · have h12 : 'A' ≤ c ∧ c ≤ 'Z' := by simpa using h
    have ht : (toLowerC c).toNat = c.toNat + 32 := toLowerC_toNat c h12.1 h12.2
    have hge : 65 ≤ c.toNat := by
      have := char_le_toNat h12.1
      simpa using this
    apply toLowerC_eq_self
    have hnle : ¬ (toLowerC c ≤ 'Z') := by
      intro hle
      have h90 := char_le_toNat hle
      have hz : ('Z').toNat = 90 := by decide
      omega
    simp [hnle]
  · rw [toLowerC_eq_self c (by simpa using h)]
    exact toLowerC_eq_self c (by simpa using h)

/-- Helper: lower-casing neither creates nor destroys stripped
characters. -/
theorem isSep_toLowerC (c : Char) : isSep (toLowerC c) = isSep c := by
  by_cases h : ('A' ≤ c && c ≤ 'Z') = true
  · have h12 : 'A' ≤ c ∧ c ≤ 'Z' := by simpa using h
    have ht : (toLowerC c).toNat = c.toNat + 32 := toLowerC_toNat c h12.1 h12.2
    have hge : 65 ≤ c.toNat := by
      have := char_le_toNat h12.1
      simpa using this
    rw [isSep_false_of_ge _ (by omega), isSep_false_of_ge _ (by omega)]
  · rw [toLowerC_eq_self c (by simpa using h)]

/-- Helper: code-point bounds of ASCII letters. -/
theorem toNat_of_isLetterC (c : Char) (h : isLetterC c = true) :
    65 ≤ c.toNat ∧ c.toNat ≤ 122 := by
  simp only [isLetterC, Bool.or_eq_true, Bool.and_eq_true, decide_eq_true_eq] at h
  have ha : ('A').toNat = 65 := by decide
  have hz : ('Z').toNat = 90 := by decide
  have haa : ('a').toNat = 97 := by decide
  have hzz : ('z').toNat = 122 := by decide
  rcases h with ⟨h1, h2⟩ | ⟨h1, h2⟩ <;>
    (have hc1 := char_le_toNat h1; have hc2 := char_le_toNat h2; omega)

/-- Helper: code-point bounds of ASCII digits. -/
theorem toNat_of_isDigitC (c : Char) (h : isDigitC c = true) :
    48 ≤ c.toNat ∧ c.toNat ≤ 57 := by
  simp only [isDigitC, Bool.and_eq_true, decide_eq_true_eq] at h
  have h0 : ('0').toNat = 48 := by decide
  have h9 : ('9').toNat = 57 := by decide
  obtain ⟨h1, h2⟩ := h
  have hc1 := char_le_toNat h1
  have hc2 := char_le_toNat h2
  omega

/-- Helper: word characters have code point at least 48. -/
theorem toNat_of_isWordChar (c : Char) (h : isWordChar c = true) :
    48 ≤ c.toNat := by
  simp only [isWordChar, Bool.or_eq_true, beq_iff_eq] at h
  rcases h with (h | h) | rfl
  · exact le_trans (by omega) (toNat_of_isLetterC c h).1
  · exact (toNat_of_isDigitC c h).1
  · decide

/-- Helper: separator characters are not letters. -/
theorem isLetterC_of_isSep (c : Char) (h : isSep c = true) : isLetterC c = false := by
  cases hl : isLetterC c with
  | false => rfl
  | true =>
    exact absurd (toNat_of_isLetterC c hl).1 (by have := toNat_le_of_isSep c h; omega)

/-- Helper: separator characters are not word characters. -/
theorem isWordChar_of_isSep (c : Char) (h : isSep c = true) : isWordChar c = false := by
  cases hw : isWordChar c with
  | false => rfl
  | true =>
    exact absurd (toNat_of_isWordChar c hw) (by have := toNat_le_of_isSep c h; omega)

/-- Helper: letters are word characters. -/
theorem isWordChar_of_isLetterC (c : Char) (h : isLetterC c = true) :
    isWordChar c = true := by
  simp [isWordChar, h]

/-- Helper: digits are word characters. -/
theorem isWordChar_of_isDigitC (c : Char) (h : isDigitC c = true) :
    isWordChar c = true := by
  simp [isWordChar, h]

/-- Helper: digits are not letters. -/
theorem isLetterC_of_isDigitC (c : Char) (h : isDigitC c = true) :
    isLetterC c = false := by
  cases hl : isLetterC c with
  | false => rfl
  | true =>
    exact absurd (toNat_of_isLetterC c hl).1 (by have := (toNat_of_isDigitC c h).2; omega)

/-- Helper: non-word characters are neither letters nor digits. -/
theorem not_word_parts (c : Char) (h : isWordChar c = false) :
    isLetterC c = false ∧ isDigitC c = false := by
  simp only [isWordChar, Bool.or_eq_false_iff] at h
  exact ⟨h.1.1, h.1.2⟩

/-- Helper: the tail matcher splits its input into the consumed group and
the rest. -/
theorem matchTail_append :
    ∀ r t r4, matchTail r = some (t, r4) → t ++ r4 = r := by
  intro r
  match r with
  | [] =>
    intro t r4 h
    simp only [matchTail, Option.some.injEq, Prod.mk.injEq] at h
    obtain ⟨rfl, rfl⟩ := h
    rfl
  | [c] =>
    intro t r4 h
    simp only [matchTail] at h
    split_ifs at h <;>
      (simp only [Option.some.injEq, Prod.mk.injEq] at h
       obtain ⟨rfl, rfl⟩ := h
       simp)
  | [c, a] =>
    intro t r4 h
    simp only [matchTail] at h
    split_ifs at h <;>
      (simp only [Option.some.injEq, Prod.mk.injEq] at h
       obtain ⟨rfl, rfl⟩ := h
       simp)
  | c :: a :: d :: rr =>
    intro t r4 h
    simp only [matchTail] at h
    split_ifs at h <;>
      (simp only [Option.some.injEq, Prod.mk.injEq] at h
       obtain ⟨rfl, rfl⟩ := h
       simp)

/-- Helper: the tail matcher consumes its whole input exactly when the
input has one of the shapes of the optional letter tail. -/
theorem matchTail_full_iff (r : List Char) :
    matchTail r = some (r, []) ↔ tailShapeCheck r = true := by
  match r with
  | [] => simp [matchTail, tailShapeCheck]
  | [c] =>
    simp only [matchTail, tailShapeCheck]
    split_ifs with h1 h2 h3 <;>
      simp_all [isLetterC_of_isSep]
  | [c, a] =>
    simp only [matchTail, tailShapeCheck]
    split_ifs with h1 h2 h3 h4 h5 <;>
      simp_all [isLetterC_of_isSep, not_word_parts]
  | c :: a :: d :: rr =>
    cases rr with
    | nil =>
      simp only [matchTail, tailShapeCheck, boundaryAfter]
      split_ifs with h1 h2 h3 h4 h5 h6 h7 <;>
        simp_all [isLetterC_of_isSep, not_word_parts]
    | cons e rest =>
      simp only [matchTail, tailShapeCheck]
      split_ifs <;> simp_all

/-- Helper: a matched jurisdiction code is the first two characters, and
its first character is a letter. -/
theorem matchCountryCode_eq (l p r1 : List Char)
    (h : matchCountryCode l = some (p, r1)) :
    l = p ++ r1 ∧ ∃ a b, p = [a, b] ∧ isLetterC a = true := by
  match l with
  | [] => exact absurd h (by simp [matchCountryCode])
  | [a] => exact absurd h (by simp [matchCountryCode])
  | a :: b :: rest =>
    simp only [matchCountryCode] at h
    split_ifs at h with hcond
    · simp only [Option.some.injEq, Prod.mk.injEq] at h
      obtain ⟨rfl, rfl⟩ := h
      refine ⟨rfl, a, b, rfl, ?_⟩
      simp only [Bool.or_eq_true, Bool.and_eq_true, beq_iff_eq] at hcond
      rcases hcond with (((h1 | h1) | h1) | h1) | h1 <;>
        rcases h1.1 with rfl | rfl <;> decide

/-- Helper: a jurisdiction-code match is stable under appending text. -/
theorem matchCountryCode_append (l p r1 post : List Char)
    (h : matchCountryCode l = some (p, r1)) :
    matchCountryCode (l ++ post) = some (p, r1 ++ post) := by
  match l with
  | [] => exact absurd h (by simp [matchCountryCode])
  | [a] => exact absurd h (by simp [matchCountryCode])
  | a :: b :: rest =>
    simp only [matchCountryCode] at h
    split_ifs at h with hcond
    · simp only [Option.some.injEq, Prod.mk.injEq] at h
      obtain ⟨rfl, rfl⟩ := h
      show matchCountryCode (a :: b :: (rest ++ post)) = some ([a, b], rest ++ post)
      simp only [matchCountryCode]
      rw [if_pos hcond]

/-- Helper: digits are not whitespace. -/
theorem isWs_of_isDigitC (c : Char) (h : isDigitC c = true) : isWs c = false := by
  have hs : isSep c = false :=
    isSep_false_of_ge c (by have := (toNat_of_isDigitC c h).1; omega)
  simp only [isSep, Bool.or_eq_false_iff] at hs
  exact hs.1

/-- Helper: a non-empty take yields a head satisfying the predicate. -/
theorem takeWhile_ne_nil {p : Char → Bool} (l : List Char)
    (h : (l.takeWhile p).isEmpty = false) :
    ∃ c t, l = c :: t ∧ p c = true := by
  cases l with
  | nil => simp [List.takeWhile] at h
  | cons c t =>
    by_cases hp : p c = true
    · exact ⟨c, t, rfl, hp⟩
    · rw [List.takeWhile_cons_of_neg (by simp [hp])] at h
      simp at h

/-- Helper: the head left by a drop fails the predicate. -/
theorem dropWhile_head_false {p : Char → Bool} (l : List Char) (c : Char)
    (t : List Char) (h : l.dropWhile p = c :: t) : p c = false := by
  have hh := List.head?_dropWhile_not p l
  rw [h] at hh
  simpa using hh

/-- Helper: no attempt succeeds inside the empty string. -/
theorem tryAt_nil (prev : Option Char) (i : Nat) : tryAt prev [] i = none := by
  cases i <;> rfl

/-- Helper: the attempt at position zero is the anchored attempt. -/
theorem tryAt_zero (prev : Option Char) (c : Char) (rest : List Char) :
    tryAt prev (c :: rest) 0 =
      (if wordBoundary prev c then matchAt (c :: rest) else none) := rfl

/-- Helper: attempts at later positions drop the head. -/
theorem tryAt_succ (prev : Option Char) (c : Char) (rest : List Char) (i : Nat) :
    tryAt prev (c :: rest) (i + 1) = tryAt (some c) rest i := rfl

/-- Helper: the scanning loop fails exactly when every position fails. -/
theorem searchAux_none_iff :
    ∀ (l : List Char) (prev : Option Char),
      (searchAux prev l = none ↔ ∀ i, tryAt prev l i = none) := by
  intro l
  induction l with
  | nil =>
    intro prev
    constructor
    · intro _ i
      exact tryAt_nil prev i
    · intro _
      rfl
  | cons c rest ih =>
    intro prev
    cases h0 : (if wordBoundary prev c then matchAt (c :: rest) else none) with
    | some m0 =>
      have hL : searchAux prev (c :: rest) = some m0 := by
        simp only [searchAux]
        rw [h0]
      constructor
      · intro h
        rw [hL] at h
        cases h
      · intro h
        have := h 0
        rw [tryAt_zero, h0] at this
        cases this
    | none =>
      have hL : searchAux prev (c :: rest) = searchAux (some c) rest := by
        simp only [searchAux]
        rw [h0]
      rw [hL, ih (some c)]
      constructor
      · intro h i
        match i with
        | 0 =>
          rw [tryAt_zero]
          exact h0
        | i + 1 =>
          rw [tryAt_succ]
          exact h i
      · intro h i
        have := h (i + 1)
        rw [tryAt_succ] at this
        exact this

/-- Helper: the scanning loop returns exactly the match of the leftmost
succeeding position. -/
theorem searchAux_some_iff :
    ∀ (l : List Char) (prev : Option Char) (m : List Char),
      (searchAux prev l = some m ↔
        ∃ i, tryAt prev l i = some m ∧ ∀ j, j < i → tryAt prev l j = none) := by
  intro l
  induction l with
  | nil =>
    intro prev m
    constructor
    · intro h
      cases h
    · rintro ⟨i, hi, _⟩
      rw [tryAt_nil] at hi
      cases hi
  | cons c rest ih =>
    intro prev m
    cases h0 : (if wordBoundary prev c then matchAt (c :: rest) else none) with
    | some m0 =>
      have hL : searchAux prev (c :: rest) = some m0 := by
        simp only [searchAux]
        rw [h0]
      constructor
      · intro h
        rw [hL] at h
        cases h
        refine ⟨0, ?_, ?_⟩
        · rw [tryAt_zero]
          exact h0
        · intro j hj
          omega
      · rintro ⟨i, hi, hlt⟩
        match i with
        | 0 =>
          rw [tryAt_zero, h0] at hi
          rw [hL, hi]
        | i + 1 =>
          have := hlt 0 (by omega)
          rw [tryAt_zero, h0] at this
          cases this
    | none =>
      have hL : searchAux prev (c :: rest) = searchAux (some c) rest := by
        simp only [searchAux]
        rw [h0]
      rw [hL, ih (some c) m]
      constructor
      · rintro ⟨i, hi, hlt⟩
        refine ⟨i + 1, ?_, ?_⟩
        · rw [tryAt_succ]
          exact hi
        · intro j hj
          match j with
          | 0 =>
            rw [tryAt_zero]
            exact h0
          | j + 1 =>
            rw [tryAt_succ]
            exact hlt j (by omega)
      · rintro ⟨i, hi, hlt⟩
        match i with
        | 0 =>
          rw [tryAt_zero, h0] at hi
          cases hi
        | i + 1 =>
          rw [tryAt_succ] at hi
          refine ⟨i, hi, ?_⟩
          intro j hj
          have := hlt (j + 1) (by omega)
          rw [tryAt_succ] at this
          exact this

/-- Helper: a succeeding attempt at position i is an anchored match after i
dropped characters. -/
theorem tryAt_split :
    ∀ (i : Nat) (l : List Char) (prev : Option Char) (m : List Char),
      tryAt prev l i = some m →
      ∃ pre rest, l = pre ++ rest ∧ pre.length = i ∧ matchAt rest = some m := by
  intro i
  induction i with
  | zero =>
    intro l prev m h
    cases l with
    | nil =>
      rw [tryAt_nil] at h
      cases h
    | cons c rest =>
      rw [tryAt_zero] at h
      split_ifs at h
      exact ⟨[], c :: rest, rfl, rfl, h⟩
  | succ i ih =>
    intro l prev m h
    cases l with
    | nil =>
      rw [tryAt_nil] at h
      cases h
    | cons c rest =>
      rw [tryAt_succ] at h
      obtain ⟨pre, rest2, heq, hlen, hm⟩ := ih rest (some c) m h
      exact ⟨c :: pre, rest2, by simp [heq], by simp [hlen], hm⟩

/-- Helper: shifting an attempt across a prefix of the input. -/
theorem tryAt_shift :
    ∀ (pre : List Char) (prev : Option Char) (l : List Char),
      tryAt prev (pre ++ l) pre.length = tryAt (prevAfter prev pre) l 0 := by
  intro pre
  induction pre with
  | nil =>
    intro prev l
    rfl
  | cons c pt ih =>
    intro prev l
    exact ih (some c) l

/-- Helper: an anchored match splits the input into the matched text and
the rest. -/
theorem matchAtFull_append_eq (l m r : List Char)
    (h : matchAtFull l = some (m, r)) : m ++ r = l := by
  unfold matchAtFull at h
  cases hc : matchCountryCode l with
  | none =>
    rw [hc] at h
    cases h
  | some pr =>
    obtain ⟨p, r1⟩ := pr
    rw [hc] at h
    dsimp only at h
    split_ifs at h with hd
    cases hmt : matchTail ((r1.dropWhile isWs).dropWhile isDigitC) with
    | none =>
      rw [hmt] at h
      cases h
    | some tr =>
      obtain ⟨t, r4⟩ := tr
      rw [hmt] at h
      simp only [Option.some.injEq, Prod.mk.injEq] at h
      obtain ⟨rfl, rfl⟩ := h
      have h1 := List.takeWhile_append_dropWhile isWs r1
      have h2 := List.takeWhile_append_dropWhile isDigitC (r1.dropWhile isWs)
      have h3 := matchTail_append _ _ _ hmt
      have h4 := (matchCountryCode_eq l p r1 hc).1
      rw [h4]
      simp only [List.append_assoc]
      rw [h3, h2, h1]

/-- Helper: a token of the amended shape matches anchored at its start and
consumes exactly itself. -/
theorem matchAtFull_of_amendedShape (l : List Char) (h : amendedShape l = true) :
    matchAtFull l = some (l, []) := by
  unfold amendedShape at h
  cases hc : matchCountryCode l with
  | none =>
    rw [hc] at h
    cases h
  | some pr =>
    obtain ⟨p, r1⟩ := pr
    rw [hc] at h
    dsimp only at h
    rw [Bool.and_eq_true] at h
    obtain ⟨hne, htc⟩ := h
    rw [Bool.not_eq_true'] at hne
    have hmt := (matchTail_full_iff _).mpr htc
    unfold matchAtFull
    rw [hc]
    dsimp only
    rw [if_neg (by simp [hne]), hmt]
    dsimp only
    have h4 := (matchCountryCode_eq l p r1 hc).1
    have h1 := List.takeWhile_append_dropWhile isWs r1
    have h2 := List.takeWhile_append_dropWhile isDigitC (r1.dropWhile isWs)
    rw [h4]
    simp only [Option.some.injEq, Prod.mk.injEq, List.append_assoc]
    refine ⟨?_, trivial⟩
    rw [h2, h1]

/-- Helper: an anchored match that consumes its whole input certifies the
amended shape. -/
theorem amendedShape_of_matchAtFull (l : List Char)
    (h : matchAtFull l = some (l, [])) : amendedShape l = true := by
  unfold matchAtFull at h
  cases hc : matchCountryCode l with
  | none =>
    rw [hc] at h
    cases h
  | some pr =>
    obtain ⟨p, r1⟩ := pr
    rw [hc] at h
    dsimp only at h
    split_ifs at h with hd
    cases hmt : matchTail ((r1.dropWhile isWs).dropWhile isDigitC) with
    | none =>
      rw [hmt] at h
      cases h
    | some tr =>
      obtain ⟨t, r4⟩ := tr
      rw [hmt] at h
      dsimp only at h
      simp only [Option.some.injEq, Prod.mk.injEq] at h
      obtain ⟨heq, rfl⟩ := h
      have h3 := matchTail_append _ _ _ hmt
      rw [List.append_nil] at h3
      subst h3
      have htc := (matchTail_full_iff _).mp hmt
      unfold amendedShape
      rw [hc]
      dsimp only
      rw [Bool.and_eq_true]
      refine ⟨?_, htc⟩
      rw [Bool.not_eq_true']
      simpa using hd

/-- Helper: the scanning loop succeeds at the head of the input when the
head position carries a word boundary and an anchored match. -/
theorem searchAux_head_some (l : List Char) (c : Char) (rest m : List Char)
    (hl : l = c :: rest) (hb : wordBoundary none c = true)
    (hm : matchAt l = some m) : searchAux none l = some m := by
  subst hl
  simp only [searchAux]
  rw [if_pos hb, hm]

/-- Helper: when the character after the digit run is not a word character,
the tail matcher always succeeds. -/
theorem matchTail_isSome_of_nonword (x : Char) (xs : List Char)
    (hx : isWordChar x = false) : ∃ t r4, matchTail (x :: xs) = some (t, r4) := by
  match xs with
  | [] =>
    simp only [matchTail]
    split_ifs <;> first | exact ⟨_, _, rfl⟩ | simp_all
  | [a] =>
    simp only [matchTail]
    split_ifs <;> first | exact ⟨_, _, rfl⟩ | simp_all [isWordChar_of_isLetterC]
  | a :: d :: r =>
    simp only [matchTail]
    split_ifs <;> first | exact ⟨_, _, rfl⟩ | simp_all [isWordChar_of_isLetterC]

/-- Helper: the tail matcher succeeds on a tail-shaped remainder followed
by a word boundary. -/
theorem matchTail_shape_append (r3 post : List Char)
    (htc : tailShapeCheck r3 = true) (hpost : boundaryAfter post = true) :
    ∃ t r4, matchTail (r3 ++ post) = some (t, r4) := by
  match r3 with
  | [] =>
    cases post with
    | nil => exact ⟨[], [], rfl⟩
    | cons x xs =>
      have hx : isWordChar x = false := by
        simpa [boundaryAfter] using hpost
      exact matchTail_isSome_of_nonword x xs hx
  | [a] =>
    have hla : isLetterC a = true := by simpa [tailShapeCheck] using htc
    have hsa : isSep a = false :=
      isSep_false_of_ge a (by have := (toNat_of_isLetterC a hla).1; omega)
    cases post with
    | nil =>
      simp only [List.nil_append, List.append_nil, matchTail]
      rw [if_neg (by simp [hsa]), if_pos hla]
      exact ⟨_, _, rfl⟩
    | cons x xs =>
      have hx : isWordChar x = false := by simpa [boundaryAfter] using hpost
      cases xs with
      | nil =>
        simp only [List.cons_append, List.nil_append, matchTail]
        rw [if_neg (by simp [hsa]), if_pos hla]
        by_cases hdx : isDigitC x = true
        · rw [if_pos hdx]
          exact ⟨_, _, rfl⟩
        · rw [if_neg hdx, if_pos (by simp [hx])]
          exact ⟨_, _, rfl⟩
      | cons y ys =>
        simp only [List.cons_append, List.nil_append, matchTail]
        rw [if_neg (by simp [hsa]), if_pos hla]
        by_cases hcd : (isDigitC x && boundaryAfter (y :: ys)) = true
        · rw [if_pos hcd]
          exact ⟨_, _, rfl⟩
        · rw [if_neg hcd, if_pos (by simp [hx])]
          exact ⟨_, _, rfl⟩
  | [x, y] =>
    simp only [tailShapeCheck, Bool.or_eq_true, Bool.and_eq_true] at htc
    rcases htc with ⟨hlx, hdy⟩ | ⟨hsx, hly⟩
    · have hsx : isSep x = false :=
        isSep_false_of_ge x (by have := (toNat_of_isLetterC x hlx).1; omega)
      cases post with
      | nil =>
        simp only [List.cons_append, List.nil_append, List.append_nil, matchTail]
        rw [if_neg (by simp [hsx]), if_pos hlx, if_pos hdy]
        exact ⟨_, _, rfl⟩
      | cons z zs =>
        have hz : isWordChar z = false := by simpa [boundaryAfter] using hpost
        simp only [List.cons_append, List.nil_append, matchTail]
        rw [if_neg (by simp [hsx]), if_pos hlx,
          if_pos (by simp [hdy, boundaryAfter, hz])]
        exact ⟨_, _, rfl⟩
    · cases post with
      | nil =>
        simp only [List.cons_append, List.nil_append, List.append_nil, matchTail]
        rw [if_pos hsx, if_pos hly]
        exact ⟨_, _, rfl⟩
      | cons z zs =>
        have hz : isWordChar z = false := by simpa [boundaryAfter] using hpost
        simp only [List.cons_append, List.nil_append, matchTail]
        rw [if_pos hsx, if_pos hly]
        by_cases hcd : (isDigitC z && boundaryAfter zs) = true
        · rw [if_pos hcd]
          exact ⟨_, _, rfl⟩
        · rw [if_neg hcd, if_pos (by simp [hz])]
          exact ⟨_, _, rfl⟩
  | [s, a, b] =>
    simp only [tailShapeCheck, Bool.and_eq_true] at htc
    obtain ⟨⟨hs, ha⟩, hb⟩ := htc
    simp only [List.cons_append, List.nil_append, matchTail]
    rw [if_pos hs, if_pos ha, if_pos (by simp [hb, hpost])]
    exact ⟨_, _, rfl⟩
  | x1 :: x2 :: x3 :: x4 :: rest =>
    exact absurd htc (by simp [tailShapeCheck])

/-- Helper: a token of the amended shape still matches anchored at its
start when followed by text opening with a word boundary. -/
theorem matchAtFull_token (tok post : List Char)
    (hshape : amendedShape tok = true) (hpost : boundaryAfter post = true) :
    ∃ m r, matchAtFull (tok ++ post) = some (m, r) := by
  unfold amendedShape at hshape
  cases hc : matchCountryCode tok with
  | none =>
    rw [hc] at hshape
    cases hshape
  | some pr =>
    obtain ⟨p, r1⟩ := pr
    rw [hc] at hshape
    dsimp only at hshape
    rw [Bool.and_eq_true] at hshape
    obtain ⟨hne, htc⟩ := hshape
    rw [Bool.not_eq_true'] at hne
    obtain ⟨d0, r2t, hr2, hd0⟩ := takeWhile_ne_nil (r1.dropWhile isWs) hne
    have hc2 := matchCountryCode_append tok p r1 post hc
    have hws : ∀ x ∈ r1.takeWhile isWs, isWs x = true := by
      intro x hxx
      exact List.all_eq_true.mp (List.all_takeWhile (l := r1)) x hxx
    have hsplitws : r1 ++ post = r1.takeWhile isWs ++ ((d0 :: r2t) ++ post) := by
      rw [← hr2, ← List.append_assoc, List.takeWhile_append_dropWhile]
    have hdrop2 : (r1 ++ post).dropWhile isWs = (r1.dropWhile isWs) ++ post := by
      rw [hsplitws, List.dropWhile_append_of_pos hws, List.cons_append,
        List.dropWhile_cons_of_neg (by simp [isWs_of_isDigitC d0 hd0]), hr2]
      simp
    have hdig : ∀ x ∈ (r1.dropWhile isWs).takeWhile isDigitC, isDigitC x = true := by
      intro x hxx
      exact List.all_eq_true.mp (List.all_takeWhile (l := r1.dropWhile isWs)) x hxx
    have hsplitd : (r1.dropWhile isWs) ++ post =
        (r1.dropWhile isWs).takeWhile isDigitC ++
          ((r1.dropWhile isWs).dropWhile isDigitC ++ post) := by
      rw [← List.append_assoc, List.takeWhile_append_dropWhile]
    have hpostfix : ((r1.dropWhile isWs).dropWhile isDigitC ++ post).takeWhile isDigitC = [] ∧
        ((r1.dropWhile isWs).dropWhile isDigitC ++ post).dropWhile isDigitC =
          (r1.dropWhile isWs).dropWhile isDigitC ++ post := by
      cases hr3 : (r1.dropWhile isWs).dropWhile isDigitC with
      | nil =>
        simp only [List.nil_append]
        cases post with
        | nil => exact ⟨rfl, rfl⟩
        | cons x xs =>
          have hx : isWordChar x = false := by simpa [boundaryAfter] using hpost
          have hxd : isDigitC x = false := (not_word_parts x hx).2
          constructor
          · rw [List.takeWhile_cons_of_neg (by simp [hxd])]
          · rw [List.dropWhile_cons_of_neg (by simp [hxd])]
      | cons c3 t3 =>
        have hc3 : isDigitC c3 = false := dropWhile_head_false (r1.dropWhile isWs) c3 t3 hr3
        constructor
        · rw [List.cons_append, List.takeWhile_cons_of_neg (by simp [hc3])]
        · rw [List.cons_append, List.dropWhile_cons_of_neg (by simp [hc3])]
    have htake3 : ((r1.dropWhile isWs) ++ post).takeWhile isDigitC =
        (r1.dropWhile isWs).takeWhile isDigitC := by
      rw [hsplitd, List.takeWhile_append_of_pos hdig, hpostfix.1, List.append_nil]
    have hdrop3 : ((r1.dropWhile isWs) ++ post).dropWhile isDigitC =
        (r1.dropWhile isWs).dropWhile isDigitC ++ post := by
      rw [hsplitd, List.dropWhile_append_of_pos hdig, hpostfix.2]
    obtain ⟨t, r4, hmt⟩ := matchTail_shape_append _ post htc hpost
    unfold matchAtFull
    rw [hc2]
    dsimp only
    rw [hdrop2, htake3, hdrop3, if_neg (by simp [hne]), hmt]
    exact ⟨_, _, rfl⟩

/-- Helper: one unfolding step of the normalization. -/
theorem normalizeKey_cons (c : Char) (t : List Char) :
    normalizeKey (c :: t) =
      (if isSep c = true then normalizeKey t else toLowerC c :: normalizeKey t) := by
  by_cases hc : isSep c = true <;> simp [normalizeKey, List.filter_cons, hc]

/-- Helper: normalization is idempotent. -/
theorem normalizeKey_idem (l : List Char) :
    normalizeKey (normalizeKey l) = normalizeKey l := by
  induction l with
  | nil => rfl
  | cons c t ih =>
    rw [normalizeKey_cons]
    by_cases hc : isSep c = true
    · rw [if_pos hc]
      exact ih
    · rw [if_neg hc, normalizeKey_cons, isSep_toLowerC, if_neg hc, toLowerC_idem, ih]

/-- Helper: the matching loop only returns records of the listing. -/
theorem findTargetFile_mem (key : List Char) :
    ∀ l : List FileRecord, ∀ f, findTargetFile key l = some f → f ∈ l := by
  intro l
  induction l with
  | nil => intro f h; simp [findTargetFile] at h
  | cons a t ih =>
    intro f h
    by_cases hc : (normalizedBaseName a == key) = true
    · simp only [findTargetFile, hc, if_true] at h
      cases h
      exact List.mem_cons_self a t
    · simp only [findTargetFile, hc, if_false, Bool.false_eq_true] at h
      exact List.mem_cons_of_mem a (ih f h)

/-- C1 counterexample: for a matched file whose summarization call raises,
the summarization is attempted but the uploaded artifact is never deleted —
the `try` block has no `finally`, so the cleanup at line 154 is skipped on
the failure path. -/
theorem claim_C1_counterexample :
    hasSummarize (summarizeBlock fileA
      ⟨ApiOutcome.ok, ApiOutcome.ok, ApiOutcome.raise, ApiOutcome.ok⟩) = true ∧
    countDeletes (summarizeBlock fileA
      ⟨ApiOutcome.ok, ApiOutcome.ok, ApiOutcome.raise, ApiOutcome.ok⟩) = 0 := by
  decide

/-- C1 (amended): the uploaded artifact is deleted exactly once when the
download, the upload and the summarization call all succeed; when any of
them raises — in particular when the summarization call fails — the cleanup
call is skipped entirely. -/
theorem claim_C1_cleanup (f : FileRecord) (env : Env) :
    countDeletes (summarizeBlock f env) =
      (if env.download = ApiOutcome.ok ∧ env.upload = ApiOutcome.ok ∧
          env.generate = ApiOutcome.ok then 1 else 0) := by
  obtain ⟨d, u, g, del⟩ := env
  cases d <;> cases u <;> cases g <;> cases del <;> rfl

/-- C2: for every query in which the detector finds no identifier, the
assistant turn consists exactly of the topic-search warning, the
proof-of-concept note and the unsupported report — in particular it
performs no download and no summarization call. -/
theorem claim_C2_topic_unsupported (prompt : List Char) (files : List FileRecord)
    (env : Env) (h : PATENT_NUMBER_REGEX_search prompt = none) :
    handleAssistantTurn prompt files env =
      [Effect.warnTopicSearch, Effect.infoFirstFiveOnly, Effect.errorTopicUnsupported] ∧
    hasDownload (handleAssistantTurn prompt files env) = false ∧
    hasSummarize (handleAssistantTurn prompt files env) = false := by
  unfold handleAssistantTurn
  rw [h]
  exact ⟨rfl, rfl, rfl⟩

/-- C2 witness: the specification's example topic query takes the
unsupported path. -/
theorem claim_C2_witness :
    handleAssistantTurn "summarize trends in battery patents".data [fileA] envAllOk =
      [Effect.warnTopicSearch, Effect.infoFirstFiveOnly, Effect.errorTopicUnsupported] ∧
    hasDownload (handleAssistantTurn "summarize trends in battery patents".data
      [fileA] envAllOk) = false ∧
    hasSummarize (handleAssistantTurn "summarize trends in battery patents".data
      [fileA] envAllOk) = false :=
  claim_C2_topic_unsupported "summarize trends in battery patents".data [fileA]
    envAllOk (by decide)

/-- C6 counterexample: on the query `US 1,234,567 A1` the regex match stops
at the first comma, so the detected identifier is `US 1`, whose normalized
key `us1` matches no file: the pipeline reports not-found instead of
returning the record. -/
theorem claim_C6_counterexample :
    PATENT_NUMBER_REGEX_search "US 1,234,567 A1".data = some "US 1".data ∧
    findTargetFile (normalizeKey "US 1".data) [fileA] = none ∧
    hasDownload (handleAssistantTurn "US 1,234,567 A1".data [fileA] envAllOk) = false ∧
    Effect.errorNotFound ∈ handleAssistantTurn "US 1,234,567 A1".data [fileA] envAllOk := by
  decide

/-- C6 (amended): for the file list containing the record
`{id "1", name "US1234567A1.pdf"}` and the comma-free query
`US 1234567 A1`, the pipeline detects the whole identifier, normalizes it
to `us1234567a1` and returns that record, then downloads and summarizes
it. -/
theorem claim_C6_pipeline :
    PATENT_NUMBER_REGEX_search "US 1234567 A1".data = some "US 1234567 A1".data ∧
    findTargetFile (normalizeKey "US 1234567 A1".data) [fileA] = some fileA ∧
    handleAssistantTurn "US 1234567 A1".data [fileA] envAllOk =
      [Effect.infoSearching "us1234567a1".data,
       Effect.download "1".data,
       Effect.upload "US1234567A1.pdf".data,
       Effect.generate "US1234567A1.pdf".data,
       Effect.deleteUpload "US1234567A1.pdf".data,
       Effect.showSummary, Effect.appendAssistantMsg] := by
  decide

/-- C7: normalization (strip whitespace and periods, lower-case) is a
pure, deterministic function and is idempotent. -/
theorem claim_C7_normalize_idempotent (s : List Char) :
    normalizeKey (normalizeKey s) = normalizeKey s ∧
    ∀ t, s = t → normalizeKey s = normalizeKey t :=
  ⟨normalizeKey_idem s, fun t h => by rw [h]⟩

/-- C7 witness: idempotence and determinism at a concrete identifier. -/
theorem claim_C7_witness :
    normalizeKey (normalizeKey "US 1.234.567 A1".data) =
      normalizeKey "US 1.234.567 A1".data ∧
    normalizeKey "US 1.234.567 A1".data = normalizeKey "US 1.234.567 A1".data :=
  ⟨(claim_C7_normalize_idempotent "US 1.234.567 A1".data).1,
   (claim_C7_normalize_idempotent "US 1.234.567 A1".data).2 "US 1.234.567 A1".data rfl⟩

/-- Helper: a successful match of the file-matching loop is the first
listing entry with the queried normalized base-name. -/
theorem findTargetFile_first (key : List Char) :
    ∀ l : List FileRecord, ∀ f, findTargetFile key l = some f →
      ∃ i, l.get? i = some f ∧ normalizedBaseName f = key ∧
        ∀ j g, j < i → l.get? j = some g → normalizedBaseName g ≠ key := by
  intro l
  induction l with
  | nil => intro f h; simp [findTargetFile] at h
  | cons a t ih =>
    intro f h
    by_cases hc : (normalizedBaseName a == key) = true
    · simp only [findTargetFile, hc, if_true] at h
      cases h
      refine ⟨0, rfl, by simpa using hc, ?_⟩
      intro j g hj
      omega
    · simp only [findTargetFile, hc, if_false, Bool.false_eq_true] at h
      obtain ⟨i, hi, hkey, hj⟩ := ih f h
      refine ⟨i + 1, by simpa using hi, hkey, ?_⟩
      intro j g hjlt hget
      match j with
      | 0 =>
        simp only [List.get?] at hget
        cases hget
        simpa using hc
      | j + 1 =>
        exact hj j g (by omega) (by simpa using hget)

/-- Helper: the file-matching loop fails exactly when no listing entry has
the queried normalized base-name. -/
theorem findTargetFile_none_iff (key : List Char) :
    ∀ l : List FileRecord,
      (findTargetFile key l = none ↔ ∀ f ∈ l, normalizedBaseName f ≠ key) := by
  intro l
  induction l with
  | nil => simp [findTargetFile]
  | cons a t ih =>
    by_cases hc : (normalizedBaseName a == key) = true
    · simp only [findTargetFile, hc, if_true]
      constructor
      · intro h; cases h
      · intro h
        exact absurd (by simpa using hc) (h a (List.mem_cons_self a t))
    · simp only [findTargetFile, hc, if_false, Bool.false_eq_true, ih]
      constructor
      · intro h f hf
        rcases List.mem_cons.mp hf with rfl | hf
        · simpa using hc
        · exact h f hf
      · intro h f hf
        exact h f (List.mem_cons_of_mem a hf)

/-- C3: the matcher scans the listing in order and returns the first record
whose normalized base-name equals the key exactly; when no record matches,
it returns nothing, the turn reports not-found, and no download is
attempted — matching is exact, never fuzzy or partial. -/
theorem claim_C3_exact_first_match (key : List Char) (files : List FileRecord) :
    (∀ f, findTargetFile key files = some f →
      ∃ i, files.get? i = some f ∧ normalizedBaseName f = key ∧
        ∀ j g, j < i → files.get? j = some g → normalizedBaseName g ≠ key) ∧
    (findTargetFile key files = none ↔ ∀ f ∈ files, normalizedBaseName f ≠ key) ∧
    (∀ prompt env m, PATENT_NUMBER_REGEX_search prompt = some m →
      findTargetFile (normalizeKey m) files = none →
      handleAssistantTurn prompt files env =
        [Effect.infoSearching (normalizeKey m), Effect.errorNotFound] ∧
      hasDownload (handleAssistantTurn prompt files env) = false) := by
  refine ⟨findTargetFile_first key files, findTargetFile_none_iff key files, ?_⟩
  intro prompt env m hs hf
  unfold handleAssistantTurn
  rw [hs]
  simp only [hf]
  exact ⟨trivial, rfl⟩

/-- C3 witness: a query whose normalized identifier matches no file. -/
theorem claim_C3_witness :
    handleAssistantTurn "KR 77".data [fileA] envAllOk =
      [Effect.infoSearching (normalizeKey "KR 77".data), Effect.errorNotFound] ∧
    hasDownload (handleAssistantTurn "KR 77".data [fileA] envAllOk) = false :=
  (claim_C3_exact_first_match (normalizeKey "KR 77".data) [fileA]).2.2
    "KR 77".data envAllOk "KR 77".data (by decide) (by decide)

/-- C4 counterexample: `US.123` is a token of the claimed shape — a period
between the prefix and the digits — yet the detector finds no match in it:
`\s*` admits whitespace only. -/
theorem claim_C4_counterexample :
    claimedShapeC4 "US.123".data = true ∧
    PATENT_NUMBER_REGEX_search "US.123".data = none := by
  decide

/-- C4 (amended): the detector matches a whole query as one token exactly
when the query is one of the prefixes US, KR, CN, JP, EP followed by
digits, optionally followed by a single letter (separated from the digits
by at most one whitespace or period character) and an optional trailing
digit, case-insensitively, with internal whitespace — but not periods —
allowed between the prefix and the digits. -/
theorem claim_C4_token_language (l : List Char) :
    PATENT_NUMBER_REGEX_search l = some l ↔ amendedShape l = true := by
  constructor
  · intro h
    obtain ⟨i, hi, _⟩ := (searchAux_some_iff l none l).mp h
    obtain ⟨pre, rest, heq, hlen, hm⟩ := tryAt_split i l none l hi
    unfold matchAt at hm
    cases hf : matchAtFull rest with
    | none =>
      rw [hf] at hm
      cases hm
    | some mr =>
      obtain ⟨m0, r0⟩ := mr
      rw [hf] at hm
      simp only [Option.map_some', Option.some.injEq] at hm
      rw [hm] at hf
      have hsplit := matchAtFull_append_eq rest _ r0 hf
      have e1 : l.length = pre.length + rest.length := by
        rw [heq]
        simp
      have e2 : rest.length = l.length + r0.length := by
        rw [← hsplit]
        simp
      have hpre : pre = [] := List.length_eq_zero.mp (by omega)
      have hr0 : r0 = [] := List.length_eq_zero.mp (by omega)
      have hrest : rest = l := by
        rw [heq, hpre]
        rfl
      rw [hrest, hr0] at hf
      exact amendedShape_of_matchAtFull l hf
  · intro h
    have hf := matchAtFull_of_amendedShape l h
    unfold amendedShape at h
    cases hc : matchCountryCode l with
    | none =>
      rw [hc] at h
      cases h
    | some pr =>
      obtain ⟨p, r1⟩ := pr
      obtain ⟨hl, a, b, hp, hlet⟩ := matchCountryCode_eq l p r1 hc
      have hl2 : l = a :: (b :: r1) := by
        rw [hl, hp]
        rfl
      have hb : wordBoundary none a = true := by
        simp [wordBoundary, isWordChar_of_isLetterC a hlet]
      refine searchAux_head_some l a (b :: r1) l hl2 hb ?_
      unfold matchAt
      rw [hf]
      rfl

/-- C5 counterexample: the string `xUS1234567A1` contains the
`US1234567A1`-shaped substring, but the detector extracts nothing, because
the occurrence is preceded by a word character and `\b` fails: the
surrounding text does matter. -/
theorem claim_C5_counterexample :
    "xUS1234567A1".data = "x".data ++ "US1234567A1".data ++ ([] : List Char) ∧
    PATENT_NUMBER_REGEX_search "xUS1234567A1".data = none := by
  decide

/-- C5 (amended): whenever a token of the identifier shape occurs at word
boundaries (not immediately preceded or followed by a word character), the
detector finds a match in the string; and the match returned by the search
is always the one at the leftmost succeeding position. -/
theorem claim_C5_extraction :
    (∀ tok pre post, amendedShape tok = true → okBefore pre = true →
      boundaryAfter post = true →
      PATENT_NUMBER_REGEX_search (pre ++ (tok ++ post)) ≠ none) ∧
    (∀ s m, PATENT_NUMBER_REGEX_search s = some m ↔
      ∃ i, tryAt none s i = some m ∧ ∀ j, j < i → tryAt none s j = none) := by
  constructor
  · intro tok pre post hshape hpre hpost hnone
    have hall := (searchAux_none_iff (pre ++ (tok ++ post)) none).mp hnone
    have hsome : ∃ pp rr1, matchCountryCode tok = some (pp, rr1) := by
      unfold amendedShape at hshape
      cases hcc : matchCountryCode tok with
      | none =>
        rw [hcc] at hshape
        cases hshape
      | some pr =>
        obtain ⟨p1, r11⟩ := pr
        exact ⟨p1, r11, rfl⟩

    obtain ⟨p, r1, hc⟩ := hsome
    obtain ⟨hl, a, b, hp, hlet⟩ := matchCountryCode_eq tok p r1 hc
    obtain ⟨m0, r0, hmf⟩ := matchAtFull_token tok post hshape hpost
    have hcons : tok ++ post = a :: ((b :: r1) ++ post) := by
      rw [hl, hp]
      rfl
    have hbnd : wordBoundary (prevAfter none pre) a = true := by
      have hworda := isWordChar_of_isLetterC a hlet
      unfold okBefore at hpre
      cases hpa : prevAfter none pre with
      | none => simp [wordBoundary, hworda]
      | some cq =>
        rw [hpa] at hpre
        simp only [Bool.not_eq_true'] at hpre
        simp [wordBoundary, hworda, hpre]
    have h0 : tryAt (prevAfter none pre) (tok ++ post) 0 = some m0 := by
      rw [hcons, tryAt_zero, if_pos hbnd, ← hcons]
      unfold matchAt
      rw [hmf]
      rfl
    have hx := hall pre.length
    rw [tryAt_shift, h0] at hx
    cases hx
  · intro s m
    exact searchAux_some_iff s none m

/-- C5 witness: a shaped token between non-word neighbours is found, and a
concrete search result is the leftmost match. -/
theorem claim_C5_witness :
    PATENT_NUMBER_REGEX_search ("say ".data ++ ("US1234567A1".data ++ " please".data)) ≠
      none ∧
    (PATENT_NUMBER_REGEX_search " US12".data = some "US12".data ↔
      ∃ i, tryAt none " US12".data i = some "US12".data ∧
        ∀ j, j < i → tryAt none " US12".data j = none) :=
  ⟨claim_C5_extraction.1 "US1234567A1".data "say ".data " please".data
      (by decide) (by decide) (by decide),
   claim_C5_extraction.2 " US12".data "US12".data⟩

/-- C8: the reset control empties the transcript and leaves both caches
(the folder listing and the authenticated client) unchanged. -/
theorem claim_C8_reset (s : AppState) :
    (resetConversation s).messages = [] ∧
    (resetConversation s).listDriveFilesCache = s.listDriveFilesCache ∧
    (resetConversation s).gdriveServiceCache = s.gdriveServiceCache :=
  ⟨rfl, rfl, rfl⟩

/-- C9: when any of the three configuration inputs is missing, the
interaction consists of exactly one report and nothing else: no
authentication, no listing and no query processing occurs. -/
theorem claim_C9_config_guard (c : Config) (env : TopEnv)
    (h : (c.geminiApiKey.isEmpty || c.driveFolderId.isEmpty ||
          c.gcpServiceAccountJson.isEmpty) = true) :
    mainInteraction c env = [Effect.infoFillSettings] := by
  simp [mainInteraction, h]

/-- C9 witness: with an empty API key the guard fires. -/
theorem claim_C9_witness :
    mainInteraction ⟨[], "f".data, "j".data⟩ ⟨true, [fileA], false, none, envAllOk⟩ =
      [Effect.infoFillSettings] :=
  claim_C9_config_guard ⟨[], "f".data, "j".data⟩
    ⟨true, [fileA], false, none, envAllOk⟩ (by decide)

/-- C10: the listing visible to the matcher is the first page only — at
most 1000 records, all of them among the first 1000 of the remote folder —
and the matcher can only ever return a record of that first page. -/
theorem claim_C10_single_page (remote : List FileRecord) (raises : Bool) :
    (list_drive_files remote raises).snd.length ≤ 1000 ∧
    (∀ f, f ∈ (list_drive_files remote raises).snd → f ∈ remote.take 1000) ∧
    (∀ key f, findTargetFile key (list_drive_files remote raises).snd = some f →
      f ∈ remote.take 1000) := by
  cases raises with
  | true =>
    refine ⟨by simp [list_drive_files], ?_, ?_⟩
    · intro f h
      simp [list_drive_files] at h
    · intro key f h
      simp [list_drive_files, findTargetFile] at h
  | false =>
    refine ⟨?_, ?_, ?_⟩
    · simp only [list_drive_files, drivePage, if_neg Bool.false_ne_true]
      exact List.length_take_le 1000 remote
    · intro f h
      simpa [list_drive_files, drivePage] using h
    · intro key f h
      have hm := findTargetFile_mem key _ f h
      simpa [list_drive_files, drivePage] using hm

/-- C10 witness: a concrete one-file folder. -/
theorem claim_C10_witness :
    fileA ∈ ([fileA] : List FileRecord).take 1000 :=
  (claim_C10_single_page [fileA] false).2.1 fileA (by decide)
